import Mathlib

/-!
# Verification development for `cmd/pextgen/main.go`

The generator computes three byte lookup tables: parallel bit extract (PEXT),
parallel bit deposit (PDEP) and population count.  Go's `uint8` is embedded as
a natural number below `256`; every arithmetic result that the source stores
in a `uint8` is reduced modulo `256` explicitly.
-/

namespace PextGen

/-- Go's `uint8` arithmetic wraps modulo `2^8`. -/
def u8 (n : Nat) : Nat := n % 256

/-- The `uint8` expression `1 << s`. -/
def bit8 (s : Nat) : Nat := u8 (1 <<< s)

/-- The two loop variables `result, bitPos` of `pextByte` and `pdepByte`. -/
structure Acc where
  result : Nat
  bitPos : Nat
  deriving DecidableEq, Repr

/-- One iteration of the loop body of `pextByte` (source lines 16-21). -/
def pextStep (b m : Nat) (s : Acc) (i : Nat) : Acc :=
  if m &&& bit8 i ≠ 0 then
    let r := if b &&& bit8 i ≠ 0 then s.result ||| bit8 s.bitPos else s.result
    { result := r, bitPos := u8 (s.bitPos + 1) }
  else s

/-- The function `pextByte(b, m uint8) uint8`: `for i := uint8(0); i < 8; i++`. -/
def pextByte (b m : Nat) : Nat :=
  ((List.range 8).foldl (pextStep b m) { result := 0, bitPos := 0 }).result

/-- One iteration of the loop body of `pdepByte` (source lines 30-35). -/
def pdepStep (b m : Nat) (s : Acc) (i : Nat) : Acc :=
  if m &&& bit8 i ≠ 0 then
    let r := if b &&& bit8 s.bitPos ≠ 0 then s.result ||| bit8 i else s.result
    { result := r, bitPos := u8 (s.bitPos + 1) }
  else s

/-- The function `pdepByte(b, m uint8) uint8`. -/
def pdepByte (b m : Nat) : Nat :=
  ((List.range 8).foldl (pdepStep b m) { result := 0, bitPos := 0 }).result

/-- Modelled from the spec: `bits.OnesCount8` belongs to Go's standard library
(`math/bits`), not to the repository; the spec calls it "a bit-counting
primitive (count of 1-bits in the byte)".  It is modelled as the sum of the
eight binary digits of the byte. -/
def OnesCount8 (x : Nat) : Nat :=
  (List.range 8).foldl (fun c i => c + (x >>> i) % 2) 0

/-- The three arrays declared in `main`: `pextLUT`, `pdepLUT : [256][256]uint8`
and `popLUT : [256]uint8`. -/
structure Tables where
  pextLUT : List (List Nat)
  pdepLUT : List (List Nat)
  popLUT : List Nat
  deriving DecidableEq, Repr

/-- Go zero-initialises the arrays declared with `var`. -/
def zeroTables : Tables :=
  { pextLUT := List.replicate 256 (List.replicate 256 0)
    pdepLUT := List.replicate 256 (List.replicate 256 0)
    popLUT := List.replicate 256 0 }

/-- The assignment `t[b][m] = x` on a two-dimensional array. -/
def setCell (t : List (List Nat)) (b m x : Nat) : List (List Nat) :=
  t.set b ((t[b]?.getD []).set m x)

/-- The read `t[b][m]` of a two-dimensional array. -/
def cell (t : List (List Nat)) (b m : Nat) : Option Nat :=
  t[b]?.bind (fun row => row[m]?)

/-- Body of the inner loop `for m := 0; m < 256; m++` (source lines 97-98). -/
def fillInner (b : Nat) (t : Tables) (m : Nat) : Tables :=
  { t with
    pextLUT := setCell t.pextLUT b m (pextByte (u8 b) (u8 m))
    pdepLUT := setCell t.pdepLUT b m (pdepByte (u8 b) (u8 m)) }

/-- Body of the outer loop `for b := 0; b < 256; b++` (source lines 95-99). -/
def fillOuter (t : Tables) (b : Nat) : Tables :=
  (List.range 256).foldl (fillInner b)
    { t with popLUT := t.popLUT.set b (u8 (OnesCount8 (u8 b))) }

/-- The tables as they stand after the fill loop of `main` (source lines 90-100). -/
def fillTables : Tables :=
  (List.range 256).foldl fillOuter zeroTables

/-- The shape of a `[256][256]uint8` array: 256 rows of 256 cells. -/
def IsGrid (t : List (List Nat)) : Prop :=
  t.length = 256 ∧ ∀ v, v < 256 → ∃ row, t[v]? = some row ∧ row.length = 256

/-! ### Vocabulary of the specification -/

/-- The positions below `n` at which `m` has a set bit, in ascending order. -/
def setBitsBelow (m n : Nat) : List Nat :=
  (List.range n).filter (fun i => m.testBit i)

/-- The positions `0..7` at which `m` has a set bit, in ascending order. -/
def setBits (m : Nat) : List Nat := setBitsBelow m 8

/-- The position of the `(j+1)`-th lowest set bit of `m`, if there is one. -/
def nthSetBit (m j : Nat) : Option Nat := (setBits m)[j]?

/-- Bit `p` of `b`, where `p` is the `(j+1)`-th entry of the position list `l`;
`false` when the list has no such entry. -/
def bitAtNth (b : Nat) (l : List Nat) (j : Nat) : Bool :=
  match l[j]? with
  | some p => b.testBit p
  | none => false

/-- The bitwise complement of a byte, Go's `^m` on `uint8`. -/
def not8 (m : Nat) : Nat := m ^^^ 255

/-! ### Serialization and the driver `main` -/

/-- The dynamic value handed to `generateTable` as `data interface{}`: the type
switch of the source distinguishes `[256]uint8`, `[256][256]uint8` and, having no
default branch, writes nothing for any other type. -/
inductive TableData where
  | flat (v : List Nat)
  | grid (v : List (List Nat))
  | other
  deriving DecidableEq, Repr

/-- The function `generateTable(name string, data interface{}, comment string) string`.
The buffer `buf` is threaded through the writes in source order; `%d,` prints the
element in decimal followed by a comma. -/
def generateTable (name : String) (data : TableData) (comment : String) : String :=
  let buf := ""
  let buf := if comment ≠ "" then buf ++ ("// " ++ comment ++ "\n") else buf
  let buf := buf ++ ("var " ++ name ++ " = ")
  match data with
  | TableData.flat v =>
    let buf := buf ++ "[256]uint8\x7b"
    let buf := v.enum.foldl (fun buf iv =>
      let buf := if iv.1 % 16 = 0 then buf ++ "\n\t" else buf
      buf ++ (toString iv.2 ++ ",")) buf
    buf ++ "\n\x7d"
  | TableData.grid v =>
    let buf := buf ++ "[256][256]uint8\x7b"
    let buf := v.enum.foldl (fun buf irow =>
      let buf := if irow.1 % 4 = 0 then buf ++ "\n\t" else buf
      let buf := buf ++ "\x7b"
      let buf := irow.2.enum.foldl (fun buf jv =>
        let buf := if jv.1 % 16 = 0 then buf ++ "\n\t\t" else buf
        buf ++ (toString jv.2 ++ ",")) buf
      buf ++ "\n\t\x7d,") buf
    buf ++ "\n\x7d"
  | TableData.other => buf

/-- One entry of the slice `tables` of `main`. -/
structure TableSpec where
  name : String
  data : TableData
  comment : String
  deriving DecidableEq, Repr

/-- The slice `tables` of `main` (source lines 111-119). -/
def tables (t : Tables) : List TableSpec :=
  [ { name := "pextLUT", data := TableData.grid t.pextLUT,
      comment := "pextLUT contains pre-computed parallel bit extraction results" },
    { name := "pdepLUT", data := TableData.grid t.pdepLUT,
      comment := "pdepLUT contains pre-computed parallel bit deposit results" },
    { name := "popLUT", data := TableData.flat t.popLUT,
      comment := "popLUT contains pre-computed population counts" } ]

/-- The text `main` accumulates in `buf` before formatting (source lines 103-124). -/
def sourceText (packageName : String) (t : Tables) : String :=
  let buf := ""
  let buf := buf ++ "// Code generated by cmd/pextgen/main.go; DO NOT EDIT.\n"
  let buf := buf ++ "//\n"
  let buf := buf ++ "// To regenerate this file:\n"
  let buf := buf ++ "//   go run cmd/pextgen/main.go\n"
  let buf := buf ++ "\n"
  let buf := buf ++ ("package " ++ packageName ++ "\n\n")
  (tables t).foldl (fun buf table =>
    let buf := buf ++ generateTable table.name table.data table.comment
    buf ++ "\n\n") buf

/-- What the process does to the outside world, in program order. -/
inductive Effect where
  | stderr (text : String)
  | writeFile (name : String) (data : String) (perm : Nat)
  | exit (code : Nat)
  deriving DecidableEq, Repr

/-- The environment of `main`: `format.Source` of Go's standard library and the
file system behind `os.WriteFile` are not part of the repository and are taken as
parameters.  Each returns its error, if any, as the text `%v` would print. -/
structure Env where
  formatSource : String → Except String String
  writeFile : String → String → Nat → Option String

/-- The tail of `main` after the text is built: format it, then write
`pext.gen.go` (source lines 126-138). -/
def emit (env : Env) (buf : String) : List Effect :=
  match env.formatSource buf with
  | Except.error err =>
    [Effect.stderr ("Failed to format code: " ++ err ++ "\n"), Effect.exit 1]
  | Except.ok formatted =>
    match env.writeFile "pext.gen.go" formatted 0o644 with
    | some err =>
      [Effect.writeFile "pext.gen.go" formatted 0o644,
       Effect.stderr ("Failed to write file: " ++ err ++ "\n"), Effect.exit 1]
    | none => [Effect.writeFile "pext.gen.go" formatted 0o644]

/-- The function `main`.  `pkgFlag` is the value given to `-pkg` on the command
line, `none` when the flag is absent; `flag.String` then yields its default `""`. -/
def main (env : Env) (pkgFlag : Option String) : List Effect :=
  let packageName := pkgFlag.getD ""
  if packageName = "" then
    [Effect.stderr "package name is required\n"]
  else
    emit env (sourceText packageName fillTables)

/-- The exit status of the process: the argument of `os.Exit` when it is called,
`0` when `main` returns. -/
def exitStatus : List Effect → Nat
  | [] => 0
  | Effect.exit code :: _ => code
  | _ :: rest => exitStatus rest

/-- The effect is a call of `os.WriteFile`. -/
def Effect.isWrite : Effect → Bool
  | Effect.writeFile _ _ _ => true
  | _ => false

/-- The fixed header of the generated file: the five writes of source lines
104-108 taken together. -/
def generatedHeader : String :=
  "// Code generated by cmd/pextgen/main.go; DO NOT EDIT.\n//\n// To regenerate this file:\n//   go run cmd/pextgen/main.go\n\n"

/-- An environment in which formatting returns the text unchanged and the write
succeeds. -/
def plainEnv : Env :=
  { formatSource := fun text => Except.ok text
    writeFile := fun _ _ _ => none }

/-! ### Layout of a serialized table, in the words of the specification -/

/-- The optional leading comment line. -/
def commentLine (comment : String) : String :=
  if comment = "" then "" else "// " ++ comment ++ "\n"

/-- The elements of one row in ascending index order, each printed in decimal and
followed by a comma, with the line break `brk` before element `j` exactly when `j`
is a multiple of 16. -/
def layoutElems (brk : String) (row : List Nat) : String :=
  String.join ((List.range row.length).map fun j =>
    (if j % 16 = 0 then brk else "") ++ toString (row.getD j 0) ++ ",")

/-- The literal of a `[256]uint8` table. -/
def layoutFlat (v : List Nat) : String :=
  "[256]uint8\x7b" ++ layoutElems "\n\t" v ++ "\n\x7d"

/-- Row `i` of a two-dimensional literal: a line break before its opening brace
exactly when `i` is a multiple of 4, then its elements, then its closing brace. -/
def layoutRow (i : Nat) (row : List Nat) : String :=
  (if i % 4 = 0 then "\n\t" else "") ++ "\x7b" ++ layoutElems "\n\t\t" row ++ "\n\t\x7d,"

/-- The literal of a `[256][256]uint8` table: the rows in ascending order. -/
def layoutGrid (v : List (List Nat)) : String :=
  "[256][256]uint8\x7b"
    ++ String.join ((List.range v.length).map fun i => layoutRow i (v.getD i []))
    ++ "\n\x7d"

/-! ### Counting the scalar elements of a generated text -/

/-- The number of commas in `cs` that directly follow a decimal digit; `prev`
tells whether the character before `cs` is a digit.  In the generated text these
are exactly the commas written by `%d,`, one per scalar element: the only other
comma closes a row and follows a brace. -/
def countAfter (prev : Bool) : List Char → Nat
  | [] => 0
  | c :: cs => (if prev && c == ',' then 1 else 0) + countAfter c.isDigit cs

/-- Whether the last character of `cs` is a digit; `prev` answers for the empty
text. -/
def endsDigit (prev : Bool) : List Char → Bool
  | [] => prev
  | c :: cs => endsDigit c.isDigit cs

/-- The number of scalar elements written in a text. -/
def countScalars (s : String) : Nat := countAfter false s.data

/-- The text `s` holds `k` scalar elements and does not end in a digit. -/
def Counts (s : String) (k : Nat) : Prop :=
  countAfter false s.data = k ∧ endsDigit false s.data = false

/-- The table declarations of the generated file, in the order `main` writes them. -/
def declarations (t : Tables) : List String :=
  (tables t).map fun table => generateTable table.name table.data table.comment

/-! ### The shift `1 << s` on bytes -/

theorem bit8_eq {s : Nat} (h : s < 8) : bit8 s = 2 ^ s := by
  unfold bit8 u8
  rw [Nat.one_shiftLeft]
  interval_cases s <;> rfl

theorem u8_of_lt {n : Nat} (h : n < 256) : u8 n = n := Nat.mod_eq_of_lt h

theorem and_two_pow_ne_zero (m i : Nat) : m &&& 2 ^ i ≠ 0 ↔ m.testBit i = true := by
  constructor
  · intro h
    by_contra hb
    apply h
    apply Nat.eq_of_testBit_eq
    intro j
    rw [Nat.testBit_and, Nat.testBit_two_pow, Nat.zero_testBit]
    by_cases hij : i = j
    · subst hij; simp [hb]
    · simp [hij]
  · intro hb h
    have := Nat.testBit_and m (2 ^ i) i
    rw [h, Nat.zero_testBit, hb, Nat.testBit_two_pow_self] at this
    simp at this

theorem and_bit8_ne_zero (m : Nat) {i : Nat} (h : i < 8) :
    m &&& bit8 i ≠ 0 ↔ m.testBit i = true := by
  rw [bit8_eq h]; exact and_two_pow_ne_zero m i

/-! ### Positions of the set bits of a mask -/

theorem setBitsBelow_zero (m : Nat) : setBitsBelow m 0 = [] := rfl

theorem setBitsBelow_succ (m n : Nat) :
    setBitsBelow m (n + 1) = setBitsBelow m n ++ (if m.testBit n then [n] else []) := by
  unfold setBitsBelow
  rw [List.range_succ, List.filter_append]
  by_cases h : m.testBit n <;> simp [h]

theorem length_setBitsBelow_le (m n : Nat) : (setBitsBelow m n).length ≤ n := by
  unfold setBitsBelow
  calc ((List.range n).filter _).length ≤ (List.range n).length := List.length_filter_le _ _
    _ = n := List.length_range n

theorem bitAtNth_append_of_lt (b : Nat) (l l2 : List Nat) {j : Nat} (h : j < l.length) :
    bitAtNth b (l ++ l2) j = bitAtNth b l j := by
  unfold bitAtNth
  rw [List.getElem?_append_left h]

theorem bitAtNth_of_length_le (b : Nat) (l : List Nat) {j : Nat} (h : l.length ≤ j) :
    bitAtNth b l j = false := by
  unfold bitAtNth
  rw [List.getElem?_eq_none h]

theorem bitAtNth_append_singleton_length (b : Nat) (l : List Nat) (n : Nat) :
    bitAtNth b (l ++ [n]) l.length = b.testBit n := by
  unfold bitAtNth
  simp

/-! ### Loop invariant of `pextByte` -/

/-- After the iterations `i = 0, .., n-1` of the loop of `pextByte`, the cursor
`bitPos` counts the set mask bits below `n`, and bit `j` of `result` is the bit
of `b` at the `(j+1)`-th set mask position below `n`. -/
theorem pext_loop_inv (b m : Nat) (n : Nat) (hn : n ≤ 8) :
    ((List.range n).foldl (pextStep b m) { result := 0, bitPos := 0 }).bitPos
        = (setBitsBelow m n).length ∧
    ∀ j, ((List.range n).foldl (pextStep b m) { result := 0, bitPos := 0 }).result.testBit j
        = bitAtNth b (setBitsBelow m n) j := by
  induction n with
  | zero =>
    refine ⟨rfl, fun j => ?_⟩
    simp [bitAtNth, setBitsBelow]
  | succ n ih =>
    obtain ⟨ihp, ihr⟩ := ih (by omega)
    have hlen := length_setBitsBelow_le m n
    rw [List.range_succ, List.foldl_append, setBitsBelow_succ]
    generalize (List.range n).foldl (pextStep b m) { result := 0, bitPos := 0 } = s at ihp ihr
    simp only [List.foldl_cons, List.foldl_nil, pextStep]
    by_cases hm : m.testBit n = true
    · have hc : m &&& bit8 n ≠ 0 := (and_bit8_ne_zero m (by omega)).2 hm
      rw [if_pos hc, if_pos hm]
      refine ⟨?_, fun j => ?_⟩
      · simp only [List.length_append, List.length_singleton]
        rw [u8_of_lt (by omega), ihp]
      · show (if b &&& bit8 n ≠ 0 then s.result ||| bit8 s.bitPos else s.result).testBit j = _
        rw [ihp, bit8_eq (show (setBitsBelow m n).length < 8 by omega)]
        rcases Nat.lt_trichotomy j (setBitsBelow m n).length with hj | hj | hj
        · rw [bitAtNth_append_of_lt b _ _ hj, ← ihr j]
          split
          · rw [Nat.testBit_or, Nat.testBit_two_pow_of_ne (by omega), Bool.or_false]
          · rfl
        · subst hj
          rw [bitAtNth_append_singleton_length]
          have hold : s.result.testBit (setBitsBelow m n).length = false := by
            rw [ihr]; exact bitAtNth_of_length_le b _ (le_refl _)
          by_cases hb : b.testBit n = true
          · rw [if_pos ((and_bit8_ne_zero b (by omega)).2 hb), Nat.testBit_or,
              Nat.testBit_two_pow_self, Bool.or_true, hb]
          · rw [if_neg (fun h => hb ((and_bit8_ne_zero b (by omega)).1 h)), hold]
            simpa using hb
        · rw [bitAtNth_of_length_le b _ (by simp; omega)]
          have hold : s.result.testBit j = false := by
            rw [ihr]; exact bitAtNth_of_length_le b _ (by omega)
          split
          · rw [Nat.testBit_or, hold, Nat.testBit_two_pow_of_ne (by omega)]; rfl
          · exact hold
    · have hc : ¬ (m &&& bit8 n ≠ 0) := fun h => hm ((and_bit8_ne_zero m (by omega)).1 h)
      rw [if_neg hc, if_neg hm, List.append_nil]
      exact ⟨ihp, ihr⟩

/-! ### Loop invariant of `pdepByte` -/

/-- After the iterations `i = 0, .., n-1` of the loop of `pdepByte`, the cursor
`bitPos` counts the set mask bits below `n`, and bit `i` of `result` is set
exactly when `i < n`, bit `i` of the mask is set and the bit of `b` at the
cursor value reached at `i` is set. -/
theorem pdep_loop_inv (b m : Nat) (n : Nat) (hn : n ≤ 8) :
    ((List.range n).foldl (pdepStep b m) { result := 0, bitPos := 0 }).bitPos
        = (setBitsBelow m n).length ∧
    ∀ i, ((List.range n).foldl (pdepStep b m) { result := 0, bitPos := 0 }).result.testBit i
        = (decide (i < n) && m.testBit i && b.testBit (setBitsBelow m i).length) := by
  induction n with
  | zero =>
    refine ⟨rfl, fun i => ?_⟩
    simp
  | succ n ih =>
    obtain ⟨ihp, ihr⟩ := ih (by omega)
    have hlen := length_setBitsBelow_le m n
    rw [List.range_succ, List.foldl_append, setBitsBelow_succ]
    generalize (List.range n).foldl (pdepStep b m) { result := 0, bitPos := 0 } = s at ihp ihr
    simp only [List.foldl_cons, List.foldl_nil, pdepStep]
    by_cases hm : m.testBit n = true
    · have hc : m &&& bit8 n ≠ 0 := (and_bit8_ne_zero m (by omega)).2 hm
      rw [if_pos hc, if_pos hm]
      refine ⟨?_, fun i => ?_⟩
      · simp only [List.length_append, List.length_singleton]
        rw [u8_of_lt (by omega), ihp]
      · show (if b &&& bit8 s.bitPos ≠ 0 then s.result ||| bit8 n else s.result).testBit i = _
        rw [ihp, bit8_eq (show n < 8 by omega)]
        rcases Nat.lt_trichotomy i n with hi | hi | hi
        · have hd : decide (i < n + 1) = decide (i < n) := by simp [hi]; omega
          rw [hd, ← ihr i]
          split
          · rw [Nat.testBit_or, Nat.testBit_two_pow_of_ne (by omega), Bool.or_false]
          · rfl
        · subst hi
          have hold : s.result.testBit i = false := by rw [ihr]; simp
          by_cases hb : b.testBit (setBitsBelow m i).length = true
          · rw [if_pos ((and_bit8_ne_zero b (by omega)).2 hb), Nat.testBit_or,
              Nat.testBit_two_pow_self, hm, hb]
            simp
          · rw [if_neg (fun h => hb ((and_bit8_ne_zero b (by omega)).1 h)), hold]
            simp at hb
            simp [hb]
        · have hold : s.result.testBit i = false := by
            rw [ihr]; simp; intro h; omega
          have hd : decide (i < n + 1) = false := by simp; omega
          rw [hd]
          split
          · rw [Nat.testBit_or, hold, Nat.testBit_two_pow_of_ne (by omega)]; rfl
          · rw [hold]; rfl
    · have hc : ¬ (m &&& bit8 n ≠ 0) := fun h => hm ((and_bit8_ne_zero m (by omega)).1 h)
      rw [if_neg hc]
      refine ⟨by rw [if_neg hm, List.append_nil]; exact ihp, fun i => ?_⟩
      rw [ihr i]
      rcases Nat.lt_trichotomy i n with hi | hi | hi
      · have hd : decide (i < n + 1) = decide (i < n) := by simp [hi]; omega
        rw [hd]
      · subst hi
        simp at hm
        simp [hm]
      · have h1 : decide (i < n + 1) = false := by simp; omega
        have h2 : decide (i < n) = false := by simp; omega
        rw [h1, h2]

/-! ### Bit-level description of the two functions -/

theorem pextByte_testBit (b m j : Nat) :
    (pextByte b m).testBit j = bitAtNth b (setBits m) j :=
  (pext_loop_inv b m 8 (le_refl 8)).2 j

theorem pdepByte_testBit (b m i : Nat) :
    (pdepByte b m).testBit i
      = (decide (i < 8) && m.testBit i && b.testBit (setBitsBelow m i).length) :=
  (pdep_loop_inv b m 8 (le_refl 8)).2 i

theorem testBit_u8_lt {m i : Nat} (hm : m < 256) (h : m.testBit i = true) : i < 8 := by
  by_contra hi
  have h2 : m < 2 ^ i :=
    lt_of_lt_of_le hm (by
      calc 256 = 2 ^ 8 := rfl
        _ ≤ 2 ^ i := Nat.pow_le_pow_right (by decide) (by omega))
  rw [Nat.testBit_lt_two_pow h2] at h
  exact Bool.noConfusion h

/-! ### Population count and the positions of the set bits -/

theorem bit_digit (x i : Nat) : (x >>> i) % 2 = if x.testBit i then 1 else 0 := by
  rw [Nat.testBit_to_div_mod, Nat.shiftRight_eq_div_pow]
  rcases Nat.mod_two_eq_zero_or_one (x / 2 ^ i) with h | h <;> simp [h]

theorem onesCount_fold (x n : Nat) :
    (List.range n).foldl (fun c i => c + (x >>> i) % 2) 0 = (setBitsBelow x n).length := by
  induction n with
  | zero => rfl
  | succ n ih =>
    rw [List.range_succ, List.foldl_append, ih, setBitsBelow_succ, List.length_append]
    simp only [List.foldl_cons, List.foldl_nil]
    rw [bit_digit]
    by_cases h : x.testBit n = true <;> simp [h]

theorem onesCount8_eq_length (x : Nat) : OnesCount8 x = (setBits x).length :=
  onesCount_fold x 8

theorem onesCount8_le (x : Nat) : OnesCount8 x ≤ 8 := by
  rw [onesCount8_eq_length]; exact length_setBitsBelow_le x 8

/-- The set bit at position `i < n` is the entry of `setBitsBelow m n` whose index
is the number of set bits below `i`. -/
theorem setBitsBelow_rank (m : Nat) {i n : Nat} (hi : i < n) (hm : m.testBit i = true) :
    (setBitsBelow m n)[(setBitsBelow m i).length]? = some i := by
  induction n with
  | zero => omega
  | succ n ih =>
    rw [setBitsBelow_succ]
    rcases Nat.lt_or_ge i n with h | h
    · have := ih h
      have hlt : (setBitsBelow m i).length < (setBitsBelow m n).length := by
        rcases List.getElem?_eq_some.1 this with ⟨hl, _⟩
        exact hl
      rw [List.getElem?_append_left hlt]
      exact this
    · have hin : i = n := by omega
      subst hin
      simp [hm]

/-- Every entry of `setBitsBelow m n` is a set bit of `m` below `n`, and its index
is the number of set bits below it. -/
theorem setBitsBelow_entry (m : Nat) {n j p : Nat} (h : (setBitsBelow m n)[j]? = some p) :
    p < n ∧ m.testBit p = true ∧ (setBitsBelow m p).length = j := by
  induction n with
  | zero => simp [setBitsBelow] at h
  | succ n ih =>
    rw [setBitsBelow_succ] at h
    rcases Nat.lt_or_ge j (setBitsBelow m n).length with hj | hj
    · rw [List.getElem?_append_left hj] at h
      obtain ⟨h1, h2, h3⟩ := ih h
      exact ⟨by omega, h2, h3⟩
    · rw [List.getElem?_append_right hj] at h
      by_cases hm : m.testBit n = true
      · rw [if_pos hm] at h
        rcases List.getElem?_eq_some.1 h with ⟨hl, he⟩
        simp at hl
        simp at he
        subst he
        exact ⟨by omega, hm, by omega⟩
      · rw [if_neg hm] at h
        simp at h

/-- Restricting a mask to its bits below `i` keeps the set bits below `i`. -/
theorem setBits_low (m : Nat) {i : Nat} (hi : i ≤ 8) :
    setBits (m &&& (2 ^ i - 1)) = setBitsBelow m i := by
  have key : ∀ n, n ≤ 8 →
      setBitsBelow (m &&& (2 ^ i - 1)) n = setBitsBelow m (min n i) := by
    intro n
    induction n with
    | zero => intro _; simp [setBitsBelow]
    | succ n ih =>
      intro hn
      rw [setBitsBelow_succ, ih (by omega), Nat.testBit_and, Nat.testBit_two_pow_sub_one]
      rcases Nat.lt_or_ge n i with h | h
      · have e1 : min n i = n := by omega
        have e2 : min (n + 1) i = n + 1 := by omega
        rw [e1, e2, setBitsBelow_succ]
        simp [h]
      · have e1 : min n i = i := by omega
        have e2 : min (n + 1) i = i := by omega
        rw [e1, e2]
        have : decide (n < i) = false := by simp; omega
        simp [this]
  have := key 8 (le_refl 8)
  rw [show min 8 i = i by omega] at this
  exact this

/-- The number of set mask bits below position `i`, as a population count. -/
theorem onesCount8_low (m : Nat) {i : Nat} (hi : i ≤ 8) :
    OnesCount8 (m &&& (2 ^ i - 1)) = (setBitsBelow m i).length := by
  rw [onesCount8_eq_length, setBits_low m hi]

/-! ### Contract of `pextByte` and `pdepByte` -/

/-- C1: round-trip law.  For every value `v` and every 8-bit mask `m`, depositing
the extraction result, restricted to its `popcount(m)` low bits, through the same
mask gives `v AND m`.  In the naturals `2^8 - 1` is `255`, so the full mask needs
no special case. -/
theorem pdep_pext_roundtrip (v m : Nat) (hm : m < 256) :
    pdepByte (pextByte v m &&& (2 ^ OnesCount8 m - 1)) m = v &&& m := by
  apply Nat.eq_of_testBit_eq
  intro i
  rw [pdepByte_testBit, Nat.testBit_and, Nat.testBit_and, pextByte_testBit,
    Nat.testBit_two_pow_sub_one]
  by_cases hmi : m.testBit i = true
  · have hi : i < 8 := testBit_u8_lt hm hmi
    have hr : (setBits m)[(setBitsBelow m i).length]? = some i := setBitsBelow_rank m hi hmi
    have hlt : (setBitsBelow m i).length < OnesCount8 m := by
      rw [onesCount8_eq_length]
      rcases List.getElem?_eq_some.1 hr with ⟨hl, _⟩
      exact hl
    have hb : bitAtNth v (setBits m) (setBitsBelow m i).length = v.testBit i := by
      unfold bitAtNth
      rw [hr]
    rw [hb]
    simp [hi, hmi, hlt]
  · simp at hmi
    simp [hmi]

theorem pdep_pext_roundtrip_witness :
    0xCA < 256 ∧
    pdepByte (pextByte 0xB4 0xCA &&& (2 ^ OnesCount8 0xCA - 1)) 0xCA = 0xB4 &&& 0xCA :=
  ⟨by decide, pdep_pext_roundtrip 0xB4 0xCA (by decide)⟩

/-- C2: `pextByte` is the reference PEXT.  Bit `j` of `pextByte v m` is set iff
`j < popcount(m)` and bit `p` of `v` is set, where `p` is the position of the
`(j+1)`-th lowest set bit of `m`.  Equivalently, for every set bit `i` of `m`, bit
`popcount(m AND (2^i - 1))` of the result equals bit `i` of `v`, and every result
bit that is not of this form is `0`. -/
theorem pextByte_reference (v m : Nat) (hm : m < 256) :
    (∀ j, (pextByte v m).testBit j = true ↔
        j < OnesCount8 m ∧ ∃ p, nthSetBit m j = some p ∧ v.testBit p = true) ∧
    (∀ i, m.testBit i = true →
        (pextByte v m).testBit (OnesCount8 (m &&& (2 ^ i - 1))) = v.testBit i) ∧
    (∀ j, (∀ i, m.testBit i = true → OnesCount8 (m &&& (2 ^ i - 1)) ≠ j) →
        (pextByte v m).testBit j = false) := by
  refine ⟨fun j => ?_, fun i hmi => ?_, fun j hno => ?_⟩
  · rw [pextByte_testBit, onesCount8_eq_length]
    unfold bitAtNth nthSetBit
    cases h : (setBits m)[j]? with
    | none => simp
    | some p =>
      rcases List.getElem?_eq_some.1 h with ⟨hl, _⟩
      simp [hl]
  · have hi : i < 8 := testBit_u8_lt hm hmi
    rw [onesCount8_low m (Nat.le_of_lt hi), pextByte_testBit]
    unfold bitAtNth
    rw [show (setBits m)[(setBitsBelow m i).length]? = some i from setBitsBelow_rank m hi hmi]
  · rw [pextByte_testBit]
    unfold bitAtNth
    cases h : (setBits m)[j]? with
    | none => rfl
    | some p =>
      obtain ⟨h1, h2, h3⟩ := setBitsBelow_entry m h
      exact absurd (by rw [onesCount8_low m (Nat.le_of_lt h1)]; exact h3) (hno p h2)

theorem pextByte_reference_witness :
    0xCA < 256 ∧
    (∀ j, (pextByte 0xB4 0xCA).testBit j = true ↔
        j < OnesCount8 0xCA ∧ ∃ p, nthSetBit 0xCA j = some p ∧ (0xB4).testBit p = true) ∧
    (∀ i, (0xCA).testBit i = true →
        (pextByte 0xB4 0xCA).testBit (OnesCount8 (0xCA &&& (2 ^ i - 1))) = (0xB4).testBit i) ∧
    (∀ j, (∀ i, (0xCA).testBit i = true → OnesCount8 (0xCA &&& (2 ^ i - 1)) ≠ j) →
        (pextByte 0xB4 0xCA).testBit j = false) :=
  ⟨by decide, pextByte_reference 0xB4 0xCA (by decide)⟩

/-- C3: `pdepByte` is the reference PDEP.  Bit `i` of `pdepByte v m` is set iff
bit `i` of `m` is set and bit `popcount(m AND (2^i - 1))` of `v` is set; the
`(k+1)`-th lowest bit of `v` lands on the `(k+1)`-th lowest set bit of `m`. -/
theorem pdepByte_reference (v m : Nat) (hm : m < 256) :
    (∀ i, (pdepByte v m).testBit i = true ↔
        m.testBit i = true ∧ v.testBit (OnesCount8 (m &&& (2 ^ i - 1))) = true) ∧
    (∀ k p, nthSetBit m k = some p → (pdepByte v m).testBit p = v.testBit k) := by
  refine ⟨fun i => ?_, fun k p h => ?_⟩
  · rw [pdepByte_testBit]
    by_cases hmi : m.testBit i = true
    · have hi : i < 8 := testBit_u8_lt hm hmi
      rw [onesCount8_low m (Nat.le_of_lt hi)]
      simp [hi, hmi]
    · simp at hmi
      simp [hmi]
  · obtain ⟨h1, h2, h3⟩ := setBitsBelow_entry m h
    rw [pdepByte_testBit, h3]
    simp [h1, h2]

theorem pdepByte_reference_witness :
    0xCA < 256 ∧
    (∀ i, (pdepByte 0x0B 0xCA).testBit i = true ↔
        (0xCA).testBit i = true ∧ (0x0B).testBit (OnesCount8 (0xCA &&& (2 ^ i - 1))) = true) ∧
    (∀ k p, nthSetBit 0xCA k = some p → (pdepByte 0x0B 0xCA).testBit p = (0x0B).testBit k) :=
  ⟨by decide, pdepByte_reference 0x0B 0xCA (by decide)⟩

/-- C4: `pextByte v m` has no set bit at a position `>= popcount(m)`; as a
number it is below `2^popcount(m)`. -/
theorem pextByte_lt_two_pow_popcount (v m : Nat) :
    (∀ j, OnesCount8 m ≤ j → (pextByte v m).testBit j = false) ∧
    pextByte v m < 2 ^ OnesCount8 m := by
  have h : ∀ j, j ≥ OnesCount8 m → (pextByte v m).testBit j = false := by
    intro j hj
    rw [pextByte_testBit]
    exact bitAtNth_of_length_le v _ (by rw [← onesCount8_eq_length]; exact hj)
  exact ⟨h, Nat.lt_pow_two_of_testBit _ h⟩

/-- C5: `pdepByte v m` has no set bit where the mask has a clear bit:
`pdepByte(v, m) AND (NOT m) == 0`, with `NOT` the complement on bytes. -/
theorem pdepByte_and_not_mask (v m : Nat) : pdepByte v m &&& not8 m = 0 := by
  apply Nat.eq_of_testBit_eq
  intro i
  rw [Nat.testBit_and, pdepByte_testBit, not8, Nat.testBit_xor, Nat.zero_testBit,
    show (255 : Nat) = 2 ^ 8 - 1 from rfl, Nat.testBit_two_pow_sub_one]
  by_cases hi : i < 8 <;> cases m.testBit i <;> simp [hi]

/-- C6: the empty mask yields zero, `pextByte(v, 0) == 0` and `pdepByte(v, 0) == 0`
for every 8-bit `v`. -/
theorem empty_mask_zero (v : Nat) (hv : v < 256) :
    pextByte v 0 = 0 ∧ pdepByte v 0 = 0 := by
  have h : ∀ w < 256, pextByte w 0 = 0 ∧ pdepByte w 0 = 0 := by decide!
  exact h v hv

theorem empty_mask_zero_witness :
    0xB4 < 256 ∧ pextByte 0xB4 0 = 0 ∧ pdepByte 0xB4 0 = 0 :=
  ⟨by decide, empty_mask_zero 0xB4 (by decide)⟩

/-- C7: the full mask is the identity, `pextByte(v, 255) == v` and
`pdepByte(v, 255) == v` for every 8-bit `v`. -/
theorem full_mask_identity (v : Nat) (hv : v < 256) :
    pextByte v 255 = v ∧ pdepByte v 255 = v := by
  have h : ∀ w < 256, pextByte w 255 = w ∧ pdepByte w 255 = w := by decide!
  exact h v hv

theorem full_mask_identity_witness :
    0xB4 < 256 ∧ pextByte 0xB4 255 = 0xB4 ∧ pdepByte 0xB4 255 = 0xB4 :=
  ⟨by decide, full_mask_identity 0xB4 (by decide)⟩

/-! ### The fill loop of `main` -/

theorem isGrid_replicate : IsGrid (List.replicate 256 (List.replicate 256 0)) := by
  refine ⟨List.length_replicate _ _, fun v hv => ⟨List.replicate 256 0, ?_, ?_⟩⟩
  · exact List.getElem?_replicate_of_lt hv
  · exact List.length_replicate _ _

theorem cell_replicate {v m : Nat} (hv : v < 256) (hm : m < 256) :
    cell (List.replicate 256 (List.replicate 256 0)) v m = some 0 := by
  unfold cell
  rw [List.getElem?_replicate_of_lt hv]
  exact List.getElem?_replicate_of_lt hm

theorem setCell_isGrid {t : List (List Nat)} (ht : IsGrid t) {b : Nat} (hb : b < 256)
    (m x : Nat) : IsGrid (setCell t b m x) := by
  obtain ⟨hl, hr⟩ := ht
  refine ⟨by unfold setCell; rw [List.length_set]; exact hl, fun v hv => ?_⟩
  unfold setCell
  rw [List.getElem?_set]
  by_cases hbv : b = v
  · obtain ⟨row, h1, h2⟩ := hr b hb
    rw [if_pos hbv, if_pos (by omega), h1]
    exact ⟨_, rfl, by rw [Option.getD_some, List.length_set]; exact h2⟩
  · rw [if_neg hbv]
    exact hr v hv

theorem cell_setCell {t : List (List Nat)} (ht : IsGrid t) {b m : Nat} (hb : b < 256)
    (hm : m < 256) (x v k : Nat) :
    cell (setCell t b m x) v k = if v = b ∧ k = m then some x else cell t v k := by
  obtain ⟨hl, hr⟩ := ht
  obtain ⟨row, h1, h2⟩ := hr b hb
  unfold cell setCell
  rw [List.getElem?_set, h1, Option.getD_some]
  by_cases hbv : b = v
  · subst hbv
    rw [if_pos rfl, if_pos (by omega), h1]
    simp only [Option.some_bind, true_and]
    rw [List.getElem?_set]
    by_cases hmk : m = k
    · subst hmk
      rw [if_pos rfl, if_pos (by omega), if_pos rfl]
    · rw [if_neg hmk, if_neg (fun h => hmk h.symm)]
  · rw [if_neg hbv, if_neg (fun h => hbv h.1.symm)]

/-- The inner loop writes `f m` into the cells `m < n` of row `b` and leaves every
other cell as it was. -/
theorem inner_loop_inv (f : Nat → Nat) {b : Nat} (hb : b < 256) {t : List (List Nat)}
    (ht : IsGrid t) (n : Nat) (hn : n ≤ 256) :
    IsGrid ((List.range n).foldl (fun acc m => setCell acc b m (f m)) t) ∧
    ∀ v k, cell ((List.range n).foldl (fun acc m => setCell acc b m (f m)) t) v k
      = if v = b ∧ k < n then some (f k) else cell t v k := by
  induction n with
  | zero => exact ⟨ht, fun v k => by simp⟩
  | succ n ih =>
    obtain ⟨ihg, ihc⟩ := ih (by omega)
    rw [List.range_succ, List.foldl_append]
    simp only [List.foldl_cons, List.foldl_nil]
    refine ⟨setCell_isGrid ihg hb _ _, fun v k => ?_⟩
    rw [cell_setCell ihg hb (by omega), ihc]
    by_cases hv : v = b
    · rcases Nat.lt_trichotomy k n with hk | hk | hk
      · rw [if_neg (by omega), if_pos ⟨hv, hk⟩, if_pos ⟨hv, by omega⟩]
      · subst hk
        rw [if_pos ⟨hv, rfl⟩, if_pos ⟨hv, by omega⟩]
      · rw [if_neg (by omega), if_neg (by omega), if_neg (by omega)]
    · rw [if_neg (fun h => hv h.1), if_neg (fun h => hv h.1), if_neg (fun h => hv h.1)]

/-- The two nested loops write `f b m` into every cell of the rows `b < n`. -/
theorem outer_loop_inv (f : Nat → Nat → Nat) {t : List (List Nat)} (ht : IsGrid t)
    (n : Nat) (hn : n ≤ 256) :
    IsGrid ((List.range n).foldl
      (fun acc b => (List.range 256).foldl (fun acc m => setCell acc b m (f b m)) acc) t) ∧
    ∀ v k, cell ((List.range n).foldl
      (fun acc b => (List.range 256).foldl (fun acc m => setCell acc b m (f b m)) acc) t) v k
      = if v < n ∧ k < 256 then some (f v k) else cell t v k := by
  induction n with
  | zero => exact ⟨ht, fun v k => by simp⟩
  | succ n ih =>
    obtain ⟨ihg, ihc⟩ := ih (by omega)
    rw [List.range_succ n, List.foldl_append]
    simp only [List.foldl_cons, List.foldl_nil]
    obtain ⟨hg, hc⟩ := inner_loop_inv (f n) (show n < 256 by omega) ihg 256 (le_refl _)
    refine ⟨hg, fun v k => ?_⟩
    rw [hc, ihc]
    by_cases hk : k < 256
    · rcases Nat.lt_trichotomy v n with hv | hv | hv
      · rw [if_neg (by omega), if_pos ⟨hv, hk⟩, if_pos ⟨by omega, hk⟩]
      · subst hv
        rw [if_pos ⟨rfl, hk⟩, if_pos ⟨by omega, hk⟩]
      · rw [if_neg (by omega), if_neg (by omega), if_neg (by omega)]
    · rw [if_neg (fun h => hk h.2), if_neg (fun h => hk h.2), if_neg (fun h => hk h.2)]

theorem fillInner_fold_pextLUT (b : Nat) (l : List Nat) (t : Tables) :
    (l.foldl (fillInner b) t).pextLUT
      = l.foldl (fun acc m => setCell acc b m (pextByte (u8 b) (u8 m))) t.pextLUT := by
  induction l generalizing t with
  | nil => rfl
  | cons m l ih => simp only [List.foldl_cons]; rw [ih]; rfl

theorem fillInner_fold_pdepLUT (b : Nat) (l : List Nat) (t : Tables) :
    (l.foldl (fillInner b) t).pdepLUT
      = l.foldl (fun acc m => setCell acc b m (pdepByte (u8 b) (u8 m))) t.pdepLUT := by
  induction l generalizing t with
  | nil => rfl
  | cons m l ih => simp only [List.foldl_cons]; rw [ih]; rfl

theorem fillInner_fold_popLUT (b : Nat) (l : List Nat) (t : Tables) :
    (l.foldl (fillInner b) t).popLUT = t.popLUT := by
  induction l generalizing t with
  | nil => rfl
  | cons m l ih => simp only [List.foldl_cons]; rw [ih]; rfl

theorem fillOuter_fold_pextLUT (l : List Nat) (t : Tables) :
    (l.foldl fillOuter t).pextLUT
      = l.foldl (fun acc b => (List.range 256).foldl
          (fun acc m => setCell acc b m (pextByte (u8 b) (u8 m))) acc) t.pextLUT := by
  induction l generalizing t with
  | nil => rfl
  | cons b l ih =>
    simp only [List.foldl_cons]
    rw [ih, fillOuter, fillInner_fold_pextLUT]

theorem fillOuter_fold_pdepLUT (l : List Nat) (t : Tables) :
    (l.foldl fillOuter t).pdepLUT
      = l.foldl (fun acc b => (List.range 256).foldl
          (fun acc m => setCell acc b m (pdepByte (u8 b) (u8 m))) acc) t.pdepLUT := by
  induction l generalizing t with
  | nil => rfl
  | cons b l ih =>
    simp only [List.foldl_cons]
    rw [ih, fillOuter, fillInner_fold_pdepLUT]

theorem fillOuter_fold_popLUT (l : List Nat) (t : Tables) :
    (l.foldl fillOuter t).popLUT
      = l.foldl (fun acc b => acc.set b (u8 (OnesCount8 (u8 b)))) t.popLUT := by
  induction l generalizing t with
  | nil => rfl
  | cons b l ih =>
    simp only [List.foldl_cons]
    rw [ih, fillOuter, fillInner_fold_popLUT]

/-- C8: the tables are indexed value first, mask second.  After the fill loop,
`pextLUT[v][m] == pextByte(v, m)` and `pdepLUT[v][m] == pdepByte(v, m)` for all
`v`, `m` in `0..255`; a cell keeps its initial value `0` only when the function
returns `0` for it. -/
theorem fillTables_cells (v m : Nat) (hv : v < 256) (hm : m < 256) :
    cell fillTables.pextLUT v m = some (pextByte v m) ∧
    cell fillTables.pdepLUT v m = some (pdepByte v m) ∧
    cell zeroTables.pextLUT v m = some 0 ∧
    cell zeroTables.pdepLUT v m = some 0 ∧
    (cell fillTables.pextLUT v m = some 0 → pextByte v m = 0) ∧
    (cell fillTables.pdepLUT v m = some 0 → pdepByte v m = 0) := by
  have he : cell fillTables.pextLUT v m = some (pextByte v m) := by
    unfold fillTables
    rw [fillOuter_fold_pextLUT,
      show zeroTables.pextLUT = List.replicate 256 (List.replicate 256 0) from rfl,
      (outer_loop_inv (fun b k => pextByte (u8 b) (u8 k)) isGrid_replicate 256 (le_refl _)).2,
      if_pos ⟨hv, hm⟩, u8_of_lt hv, u8_of_lt hm]
  have hd : cell fillTables.pdepLUT v m = some (pdepByte v m) := by
    unfold fillTables
    rw [fillOuter_fold_pdepLUT,
      show zeroTables.pdepLUT = List.replicate 256 (List.replicate 256 0) from rfl,
      (outer_loop_inv (fun b k => pdepByte (u8 b) (u8 k)) isGrid_replicate 256 (le_refl _)).2,
      if_pos ⟨hv, hm⟩, u8_of_lt hv, u8_of_lt hm]
  refine ⟨he, hd, cell_replicate hv hm, cell_replicate hv hm, fun h => ?_, fun h => ?_⟩
  · rw [he] at h; exact Option.some.inj h
  · rw [hd] at h; exact Option.some.inj h

theorem fillTables_cells_witness :
    2 < 256 ∧ 3 < 256 ∧
    cell fillTables.pextLUT 2 3 = some (pextByte 2 3) ∧
    cell fillTables.pdepLUT 2 3 = some (pdepByte 2 3) ∧
    cell zeroTables.pextLUT 2 3 = some 0 ∧
    cell zeroTables.pdepLUT 2 3 = some 0 ∧
    (cell fillTables.pextLUT 2 3 = some 0 → pextByte 2 3 = 0) ∧
    (cell fillTables.pdepLUT 2 3 = some 0 → pdepByte 2 3 = 0) :=
  ⟨by decide, by decide, fillTables_cells 2 3 (by decide) (by decide)⟩

/-- The loop `for b := 0; b < n; b++ { a[b] = g(b) }` on a one-dimensional array. -/
theorem set_loop_inv (g : Nat → Nat) (l : List Nat) (n : Nat) (hn : n ≤ l.length) :
    ((List.range n).foldl (fun acc b => acc.set b (g b)) l).length = l.length ∧
    ∀ v, ((List.range n).foldl (fun acc b => acc.set b (g b)) l)[v]?
      = if v < n then some (g v) else l[v]? := by
  induction n with
  | zero => exact ⟨rfl, fun v => by simp⟩
  | succ n ih =>
    obtain ⟨ihl, ihc⟩ := ih (by omega)
    rw [List.range_succ n, List.foldl_append]
    simp only [List.foldl_cons, List.foldl_nil]
    refine ⟨by rw [List.length_set]; exact ihl, fun v => ?_⟩
    rw [List.getElem?_set, ihl, ihc]
    rcases Nat.lt_trichotomy v n with hv | hv | hv
    · rw [if_neg (by omega), if_pos hv, if_pos (by omega)]
    · subst hv
      rw [if_pos rfl, if_pos (by omega), if_pos (by omega)]
    · rw [if_neg (by omega), if_neg (by omega), if_neg (by omega)]

/-- The population-count table after the fill loop. -/
theorem fillTables_popLUT (v : Nat) :
    fillTables.popLUT[v]? = if v < 256 then some (OnesCount8 v) else none := by
  unfold fillTables
  rw [fillOuter_fold_popLUT, show zeroTables.popLUT = List.replicate 256 0 from rfl,
    (set_loop_inv (fun b => u8 (OnesCount8 (u8 b))) (List.replicate 256 0) 256
      (by rw [List.length_replicate])).2]
  by_cases hv : v < 256
  · rw [if_pos hv, if_pos hv, u8_of_lt hv,
      u8_of_lt (lt_of_le_of_lt (onesCount8_le v) (by decide))]
  · rw [if_neg hv, if_neg hv]
    exact List.getElem?_eq_none (by rw [List.length_replicate]; omega)

theorem length_setBits_eq_card (v : Nat) :
    (setBits v).length = ((Finset.range 8).filter (fun i => v.testBit i = true)).card := by
  unfold setBits setBitsBelow
  rw [Finset.card_def, Finset.filter_val, Finset.range_val, Multiset.range,
    Multiset.filter_coe, Multiset.coe_card]
  congr
  funext i
  simp

/-- C9: population-count table.  For every `v` in `0..255`, `popLUT[v]` is the
number of positions `i` in `0..7` at which bit `i` of `v` is set; `popLUT[0] == 0`,
`popLUT[255] == 8`, and every entry of the table lies in `0..8`. -/
theorem popLUT_counts_bits (v : Nat) (hv : v < 256) :
    fillTables.popLUT[v]?
      = some ((Finset.range 8).filter (fun i => v.testBit i = true)).card ∧
    fillTables.popLUT[0]? = some 0 ∧
    fillTables.popLUT[255]? = some 8 ∧
    (∀ i x : Nat, fillTables.popLUT[i]? = some x → x ≤ 8) := by
  refine ⟨?_, ?_, ?_, fun i x h => ?_⟩
  · rw [fillTables_popLUT, if_pos hv, onesCount8_eq_length, length_setBits_eq_card]
  · rw [fillTables_popLUT, if_pos (by decide)]; rfl
  · rw [fillTables_popLUT, if_pos (by decide)]; rfl
  · rw [fillTables_popLUT] at h
    by_cases hi : i < 256
    · rw [if_pos hi] at h
      rw [← Option.some.inj h]
      exact onesCount8_le i
    · rw [if_neg hi] at h
      exact Option.noConfusion h

theorem popLUT_counts_bits_witness :
    0xCA < 256 ∧
    fillTables.popLUT[0xCA]?
      = some ((Finset.range 8).filter (fun i => (0xCA).testBit i = true)).card ∧
    fillTables.popLUT[0]? = some 0 ∧
    fillTables.popLUT[255]? = some 8 ∧
    (∀ i x : Nat, fillTables.popLUT[i]? = some x → x ≤ 8) :=
  ⟨by decide, popLUT_counts_bits 0xCA (by decide)⟩

/-- C10: the population-count table is symmetric under bit-complement,
`popLUT[v] + popLUT[255 - v] == 8` for every `v` in `0..255`. -/
theorem popLUT_complement (v : Nat) (hv : v < 256) :
    ∃ x y, fillTables.popLUT[v]? = some x ∧ fillTables.popLUT[255 - v]? = some y ∧
      x + y = 8 := by
  have h : ∀ w < 256, OnesCount8 w + OnesCount8 (255 - w) = 8 := by decide!
  refine ⟨OnesCount8 v, OnesCount8 (255 - v), ?_, ?_, h v hv⟩
  · rw [fillTables_popLUT, if_pos hv]
  · rw [fillTables_popLUT, if_pos (by omega)]

theorem popLUT_complement_witness :
    0xCA < 256 ∧
    ∃ x y, fillTables.popLUT[0xCA]? = some x ∧ fillTables.popLUT[255 - 0xCA]? = some y ∧
      x + y = 8 :=
  ⟨by decide, popLUT_complement 0xCA (by decide)⟩

/-! ### Algebraic laws of `pextByte` and `pdepByte` -/

theorem bitAtNth_or (a b : Nat) (l : List Nat) (j : Nat) :
    bitAtNth (a ||| b) l j = (bitAtNth a l j || bitAtNth b l j) := by
  unfold bitAtNth
  cases l[j]? with
  | none => rfl
  | some p => exact Nat.testBit_or a b p

theorem bitAtNth_cons_succ (v a : Nat) (l : List Nat) (j : Nat) :
    bitAtNth v (a :: l) (j + 1) = bitAtNth v l j := by
  unfold bitAtNth
  rw [List.getElem?_cons_succ]

theorem bitAtNth_cons_zero (v a : Nat) (l : List Nat) :
    bitAtNth v (a :: l) 0 = v.testBit a := by
  unfold bitAtNth
  rw [List.getElem?_cons_zero]

/-- Counting the output positions that receive a set bit is counting the listed
positions at which `v` has a set bit. -/
theorem countP_bitAtNth (v : Nat) (l : List Nat) (n : Nat) (hn : l.length ≤ n) :
    (List.range n).countP (fun j => bitAtNth v l j) = l.countP (fun p => v.testBit p) := by
  induction l generalizing n with
  | nil =>
    rw [List.countP_nil, List.countP_eq_zero]
    intro j _
    simp [bitAtNth]
  | cons a l ih =>
    cases n with
    | zero => simp at hn
    | succ n =>
      rw [List.range_succ_eq_map, List.countP_cons, List.countP_cons, List.countP_map]
      have hfun : ((fun j => bitAtNth v (a :: l) j) ∘ Nat.succ) = fun j => bitAtNth v l j := by
        funext j
        exact bitAtNth_cons_succ v a l j
      rw [hfun, ih n (by simpa using hn), bitAtNth_cons_zero]

theorem setBits_and (v m : Nat) :
    setBits (v &&& m) = (setBits m).filter (fun p => v.testBit p) := by
  unfold setBits setBitsBelow
  rw [List.filter_filter]
  congr 1
  funext i
  exact Nat.testBit_and v m i

/-- C16: reverse round trip.  Extracting what was deposited through the same mask
gives back the `popcount(m)` low bits of the value,
`pextByte(pdepByte(v, m), m) == v AND (2^popcount(m) - 1)`; hence `pdepByte(., m)`
is injective on the values below `2^popcount(m)`. -/
theorem pext_pdep_roundtrip (v m : Nat) :
    pextByte (pdepByte v m) m = v &&& (2 ^ OnesCount8 m - 1) ∧
    (∀ a b, a < 2 ^ OnesCount8 m → b < 2 ^ OnesCount8 m →
      pdepByte a m = pdepByte b m → a = b) := by
  have key : ∀ w, pextByte (pdepByte w m) m = w &&& (2 ^ OnesCount8 m - 1) := by
    intro w
    apply Nat.eq_of_testBit_eq
    intro j
    rw [pextByte_testBit, Nat.testBit_and, Nat.testBit_two_pow_sub_one, onesCount8_eq_length]
    unfold bitAtNth
    cases h : (setBits m)[j]? with
    | none =>
      have hj : (setBits m).length ≤ j := List.getElem?_eq_none_iff.1 h
      have hd : decide (j < (setBits m).length) = false := by simp; omega
      rw [hd, Bool.and_false]
    | some p =>
      obtain ⟨h1, h2, h3⟩ := setBitsBelow_entry m h
      rcases List.getElem?_eq_some.1 h with ⟨hl, _⟩
      show (pdepByte w m).testBit p = _
      rw [pdepByte_testBit, h3]
      simp [h1, h2, hl]
  refine ⟨key v, fun a b ha hb hab => ?_⟩
  have h1 := key a
  rw [hab, key b, Nat.and_pow_two_sub_one_eq_mod, Nat.and_pow_two_sub_one_eq_mod,
    Nat.mod_eq_of_lt ha, Nat.mod_eq_of_lt hb] at h1
  exact h1.symm

/-- C17: extraction preserves the number of selected set bits,
`popcount(pextByte(v, m)) == popcount(v AND m)`, with `popcount` the function that
fills `popLUT`. -/
theorem popcount_pextByte (v m : Nat) :
    OnesCount8 (pextByte v m) = OnesCount8 (v &&& m) := by
  rw [onesCount8_eq_length, onesCount8_eq_length, setBits_and]
  have hfun : (fun i => (pextByte v m).testBit i) = fun j => bitAtNth v (setBits m) j := by
    funext j
    exact pextByte_testBit v m j
  unfold setBits
  rw [show setBitsBelow (pextByte v m) 8
      = (List.range 8).filter (fun i => (pextByte v m).testBit i) from rfl, hfun,
    ← List.countP_eq_length_filter, ← List.countP_eq_length_filter]
  exact countP_bitAtNth v (setBitsBelow m 8) 8 (length_setBitsBelow_le m 8)

/-- C18: for a fixed mask both operations are homomorphisms for bitwise OR in the
value argument. -/
theorem pext_pdep_or (a b m : Nat) :
    pextByte (a ||| b) m = pextByte a m ||| pextByte b m ∧
    pdepByte (a ||| b) m = pdepByte a m ||| pdepByte b m := by
  constructor
  · apply Nat.eq_of_testBit_eq
    intro j
    rw [Nat.testBit_or, pextByte_testBit, pextByte_testBit, pextByte_testBit, bitAtNth_or]
  · apply Nat.eq_of_testBit_eq
    intro i
    rw [Nat.testBit_or, pdepByte_testBit, pdepByte_testBit, pdepByte_testBit, Nat.testBit_or]
    cases decide (i < 8) <;> cases m.testBit i <;> simp

/-! ### The regression vector -/

theorem fillTables_pextLUT_cell {v m : Nat} (hv : v < 256) (hm : m < 256) :
    cell fillTables.pextLUT v m = some (pextByte v m) := by
  unfold fillTables
  rw [fillOuter_fold_pextLUT,
    show zeroTables.pextLUT = List.replicate 256 (List.replicate 256 0) from rfl,
    (outer_loop_inv (fun b k => pextByte (u8 b) (u8 k)) isGrid_replicate 256 (le_refl _)).2,
    if_pos ⟨hv, hm⟩, u8_of_lt hv, u8_of_lt hm]

/-- C11: regression vector.  The set bits of the mask `0b11001010` are at positions
1, 3, 6, 7; the value `0b10110100` has there the bits 0, 0, 0, 1; packed from bit 0
upward they give `0b00001000 = 8`, which is `pextByte(0b10110100, 0b11001010)` and
the content of `pextLUT[0xB4][0xCA]`. -/
theorem regression_vector :
    setBits 0b11001010 = [1, 3, 6, 7] ∧
    (setBits 0b11001010).map (fun p => (0b10110100).testBit p) = [false, false, false, true] ∧
    0 * 2 ^ 0 + 0 * 2 ^ 1 + 0 * 2 ^ 2 + 1 * 2 ^ 3 = 0b00001000 ∧
    pextByte 0b10110100 0b11001010 = 0b00001000 ∧
    (0b00001000 : Nat) = 8 ∧
    cell fillTables.pextLUT 0xB4 0xCA = some 8 := by
  refine ⟨by decide, by decide, by decide, by decide, by decide, ?_⟩
  rw [fillTables_pextLUT_cell (by decide) (by decide)]
  decide

/-! ### The driver `main` -/

/-- C12: missing configuration.  When the package name is absent or empty, `main`
writes the non-empty diagnostic to standard error and nothing else happens: no call
of `os.WriteFile`, no call of `os.Exit`, so the process ends with status 0. -/
theorem main_missing_package (env : Env) (pkgFlag : Option String)
    (h : pkgFlag = none ∨ pkgFlag = some "") :
    main env pkgFlag = [Effect.stderr "package name is required\n"] ∧
    "package name is required\n" ≠ "" ∧
    (∀ e ∈ main env pkgFlag, e.isWrite = false) ∧
    (∀ code, Effect.exit code ∉ main env pkgFlag) ∧
    exitStatus (main env pkgFlag) = 0 := by
  have hm : main env pkgFlag = [Effect.stderr "package name is required\n"] := by
    rcases h with h | h <;> subst h <;> rfl
  rw [hm]
  refine ⟨rfl, by decide, ?_, ?_, rfl⟩
  · intro e he
    rw [List.mem_singleton] at he
    subst he
    rfl
  · intro code hc
    rw [List.mem_singleton] at hc
    exact Effect.noConfusion hc

theorem main_missing_package_witness :
    ((none : Option String) = none ∨ (none : Option String) = some "") ∧
    main plainEnv none = [Effect.stderr "package name is required\n"] ∧
    "package name is required\n" ≠ "" ∧
    (∀ e ∈ main plainEnv none, e.isWrite = false) ∧
    (∀ code, Effect.exit code ∉ main plainEnv none) ∧
    exitStatus (main plainEnv none) = 0 :=
  ⟨Or.inl rfl, main_missing_package plainEnv none (Or.inl rfl)⟩

theorem sourceText_eq (p : String) (t : Tables) :
    sourceText p t
      = generatedHeader ++ ("package " ++ p ++ "\n\n")
        ++ (generateTable "pextLUT" (TableData.grid t.pextLUT)
              "pextLUT contains pre-computed parallel bit extraction results" ++ "\n\n")
        ++ (generateTable "pdepLUT" (TableData.grid t.pdepLUT)
              "pdepLUT contains pre-computed parallel bit deposit results" ++ "\n\n")
        ++ (generateTable "popLUT" (TableData.flat t.popLUT)
              "popLUT contains pre-computed population counts" ++ "\n\n") := by
  have hh : generatedHeader
      = ((((("" ++ "// Code generated by cmd/pextgen/main.go; DO NOT EDIT.\n") ++ "//\n")
          ++ "// To regenerate this file:\n") ++ "//   go run cmd/pextgen/main.go\n")
          ++ "\n") := by decide
  rw [hh]
  simp only [sourceText, tables, List.foldl_cons, List.foldl_nil, String.append_assoc]

/-- C13: for a non-empty package name `p`, the text `main` hands to the formatter
is the fixed header, the line `package p` and a blank line, then the declarations
of `pextLUT`, `pdepLUT` and `popLUT` in this order, each produced by
`generateTable` and each followed by a blank line. -/
theorem main_text_order (env : Env) (p : String) (hp : p ≠ "") :
    main env (some p) = emit env
      (generatedHeader ++ ("package " ++ p ++ "\n\n")
        ++ (generateTable "pextLUT" (TableData.grid fillTables.pextLUT)
              "pextLUT contains pre-computed parallel bit extraction results" ++ "\n\n")
        ++ (generateTable "pdepLUT" (TableData.grid fillTables.pdepLUT)
              "pdepLUT contains pre-computed parallel bit deposit results" ++ "\n\n")
        ++ (generateTable "popLUT" (TableData.flat fillTables.popLUT)
              "popLUT contains pre-computed population counts" ++ "\n\n")) := by
  rw [← sourceText_eq]
  unfold main
  simp only [Option.getD_some]
  rw [if_neg hp]

theorem main_text_order_witness :
    "bits" ≠ "" ∧
    main plainEnv (some "bits") = emit plainEnv
      (generatedHeader ++ ("package " ++ "bits" ++ "\n\n")
        ++ (generateTable "pextLUT" (TableData.grid fillTables.pextLUT)
              "pextLUT contains pre-computed parallel bit extraction results" ++ "\n\n")
        ++ (generateTable "pdepLUT" (TableData.grid fillTables.pdepLUT)
              "pdepLUT contains pre-computed parallel bit deposit results" ++ "\n\n")
        ++ (generateTable "popLUT" (TableData.flat fillTables.popLUT)
              "popLUT contains pre-computed population counts" ++ "\n\n")) :=
  ⟨by decide, main_text_order plainEnv "bits" (by decide)⟩

/-! ### Serialization layout -/

theorem join_cons (x : String) (xs : List String) :
    String.join (x :: xs) = x ++ String.join xs := by
  apply String.ext
  simp [String.data_join]

theorem join_nil : String.join [] = "" := rfl

/-- The element loop of `generateTable`, started at index `k` with buffer `buf`,
appends the elements in order. -/
theorem elems_loop (brk : String) (row : List Nat) (k : Nat) (buf : String) :
    (row.enumFrom k).foldl (fun buf jv =>
        (if jv.1 % 16 = 0 then buf ++ brk else buf) ++ (toString jv.2 ++ ",")) buf
      = buf ++ String.join ((List.range row.length).map fun j =>
          (if (k + j) % 16 = 0 then brk else "") ++ toString (row.getD j 0) ++ ",") := by
  induction row generalizing k buf with
  | nil => simp [join_nil]
  | cons a row ih =>
    rw [List.enumFrom_cons, List.foldl_cons, ih, List.length_cons, List.range_succ_eq_map,
      List.map_cons, List.map_map, join_cons]
    have hfun : ((fun j => (if (k + j) % 16 = 0 then brk else "")
          ++ toString ((a :: row).getD j 0) ++ ",") ∘ Nat.succ)
        = fun j => (if (k + 1 + j) % 16 = 0 then brk else "")
          ++ toString (row.getD j 0) ++ "," := by
      funext j
      simp only [Function.comp, Nat.succ_eq_add_one, List.getD_cons_succ]
      rw [show k + (j + 1) = k + 1 + j by omega]
    rw [hfun]
    by_cases hk : k % 16 = 0 <;> simp [hk, String.append_assoc]

theorem layoutElems_eq_loop (brk : String) (row : List Nat) (buf : String) :
    row.enum.foldl (fun buf jv =>
        (if jv.1 % 16 = 0 then buf ++ brk else buf) ++ (toString jv.2 ++ ",")) buf
      = buf ++ layoutElems brk row := by
  unfold List.enum layoutElems
  rw [elems_loop]
  simp only [Nat.zero_add]

/-- The row loop of `generateTable`, started at row index `k` with buffer `buf`,
appends the rows in order. -/
theorem rows_loop (v : List (List Nat)) (k : Nat) (buf : String) :
    (v.enumFrom k).foldl (fun buf irow =>
        irow.2.enum.foldl (fun buf jv =>
            (if jv.1 % 16 = 0 then buf ++ "\n\t\t" else buf) ++ (toString jv.2 ++ ","))
          ((if irow.1 % 4 = 0 then buf ++ "\n\t" else buf) ++ "\x7b") ++ "\n\t\x7d,") buf
      = buf ++ String.join ((List.range v.length).map fun i =>
          layoutRow (k + i) (v.getD i [])) := by
  induction v generalizing k buf with
  | nil => simp [join_nil]
  | cons row v ih =>
    rw [List.enumFrom_cons, List.foldl_cons, ih, List.length_cons, List.range_succ_eq_map,
      List.map_cons, List.map_map, join_cons]
    have hfun : ((fun i => layoutRow (k + i) ((row :: v).getD i [])) ∘ Nat.succ)
        = fun i => layoutRow (k + 1 + i) (v.getD i []) := by
      funext i
      simp only [Function.comp, Nat.succ_eq_add_one, List.getD_cons_succ]
      rw [show k + (i + 1) = k + 1 + i by omega]
    rw [hfun, layoutElems_eq_loop]
    simp only [List.getD_cons_zero, Nat.add_zero, layoutRow]
    by_cases hk : k % 4 = 0 <;> simp [hk, String.append_assoc]

theorem generateTable_flat (name comment : String) (v : List Nat) :
    generateTable name (TableData.flat v) comment
      = commentLine comment ++ ("var " ++ name ++ " = ") ++ layoutFlat v := by
  simp only [generateTable, layoutElems_eq_loop, commentLine, layoutFlat]
  by_cases hc : comment = "" <;>
    simp only [hc, ne_eq, not_true_eq_false, not_false_eq_true, if_true, if_false,
      String.append_assoc, String.empty_append]

theorem generateTable_grid (name comment : String) (v : List (List Nat)) :
    generateTable name (TableData.grid v) comment
      = commentLine comment ++ ("var " ++ name ++ " = ") ++ layoutGrid v := by
  simp only [generateTable, commentLine, layoutGrid]
  rw [show v.enum = v.enumFrom 0 from rfl, rows_loop]
  simp only [Nat.zero_add]
  by_cases hc : comment = "" <;>
    simp only [hc, ne_eq, not_true_eq_false, not_false_eq_true, if_true, if_false,
      String.append_assoc, String.empty_append]

theorem generateTable_other (name comment : String) :
    generateTable name TableData.other comment
      = commentLine comment ++ ("var " ++ name ++ " = ") ++ "" := by
  simp only [generateTable, commentLine]
  by_cases hc : comment = "" <;>
    simp only [hc, ne_eq, not_true_eq_false, not_false_eq_true, if_true, if_false,
      String.append_assoc, String.empty_append, String.append_empty]

theorem generateTable_head (name comment : String) (d : TableData) :
    ∃ lit, generateTable name d comment
      = commentLine comment ++ ("var " ++ name ++ " = ") ++ lit := by
  cases d with
  | flat v => exact ⟨_, generateTable_flat name comment v⟩
  | grid v => exact ⟨_, generateTable_grid name comment v⟩
  | other => exact ⟨_, generateTable_other name comment⟩

/-- C15: serialization layout of `generateTable`.  The output is the comment line
`// <comment>` (present iff the comment is non-empty), then `var <name> = `, then
the literal.  A one-dimensional literal lists its elements in ascending index
order, each in decimal followed by a comma, with a line break before element `i`
exactly when `i` is a multiple of 16.  A two-dimensional literal lists its rows in
ascending order, each row laid out the same way, with a line break before the
opening brace of row `i` exactly when `i` is a multiple of 4. -/
theorem generateTable_layout (name comment : String) :
    (∀ v, generateTable name (TableData.flat v) comment
      = commentLine comment ++ ("var " ++ name ++ " = ") ++ layoutFlat v) ∧
    (∀ v, generateTable name (TableData.grid v) comment
      = commentLine comment ++ ("var " ++ name ++ " = ") ++ layoutGrid v) ∧
    (∀ d, (∃ rest, generateTable name d comment = "// " ++ comment ++ "\n" ++ rest)
      ↔ comment ≠ "") := by
  refine ⟨generateTable_flat name comment, generateTable_grid name comment, fun d => ?_⟩
  obtain ⟨lit, hlit⟩ := generateTable_head name comment d
  rw [hlit]
  constructor
  · rintro ⟨rest, h⟩ hc
    subst hc
    have hd := congrArg String.data h
    simp only [commentLine, if_true, String.data_append] at hd
    simp at hd
  · intro hc
    refine ⟨("var " ++ name ++ " = ") ++ lit, ?_⟩
    simp only [commentLine, hc, if_false, String.append_assoc]

/-! ### Element counts of the generated declarations -/

theorem countAfter_append (p : Bool) (a b : List Char) :
    countAfter p (a ++ b) = countAfter p a + countAfter (endsDigit p a) b := by
  induction a generalizing p with
  | nil => simp [countAfter, endsDigit]
  | cons c a ih =>
    rw [List.cons_append]
    simp only [countAfter, endsDigit]
    rw [ih, Nat.add_assoc]

theorem endsDigit_append (p : Bool) (a b : List Char) :
    endsDigit p (a ++ b) = endsDigit (endsDigit p a) b := by
  induction a generalizing p with
  | nil => rfl
  | cons c a ih =>
    rw [List.cons_append]
    simp only [endsDigit]
    rw [ih]

theorem counts_append {s t : String} {a b : Nat} (hs : Counts s a) (ht : Counts t b) :
    Counts (s ++ t) (a + b) := by
  obtain ⟨hs1, hs2⟩ := hs
  obtain ⟨ht1, ht2⟩ := ht
  unfold Counts
  rw [String.data_append, countAfter_append, endsDigit_append, hs2, hs1, ht1, ht2]
  exact ⟨rfl, rfl⟩

theorem counts_empty : Counts "" 0 := ⟨rfl, rfl⟩

theorem counts_join (l : List String) (k : Nat) (h : ∀ s ∈ l, Counts s k) :
    Counts (String.join l) (l.length * k) := by
  induction l with
  | nil => rw [join_nil, List.length_nil, Nat.zero_mul]; exact counts_empty
  | cons x xs ih =>
    rw [join_cons, List.length_cons, Nat.succ_mul, Nat.add_comm]
    exact counts_append (h x (List.mem_cons_self x xs))
      (ih fun s hs => h s (List.mem_cons_of_mem x hs))

/-! Decimal numerals consist of digits. -/

theorem digitChar_isDigit {k : Nat} (h : k < 10) : (Nat.digitChar k).isDigit = true := by
  interval_cases k <;> rfl

theorem toDigitsCore_isDigit (fuel n : Nat) (ds : List Char)
    (h : ∀ c ∈ ds, c.isDigit = true) :
    ∀ c ∈ Nat.toDigitsCore 10 fuel n ds, c.isDigit = true := by
  induction fuel generalizing n ds with
  | zero => exact h
  | succ fuel ih =>
    have hcons : ∀ c ∈ Nat.digitChar (n % 10) :: ds, c.isDigit = true := by
      intro c hc
      rcases List.mem_cons.1 hc with hc | hc
      · rw [hc]; exact digitChar_isDigit (Nat.mod_lt n (by decide))
      · exact h c hc
    unfold Nat.toDigitsCore
    simp only
    split
    · exact hcons
    · exact ih (n / 10) _ hcons

theorem toDigitsCore_ne_nil (fuel n : Nat) (ds : List Char) (h : ds ≠ [] ∨ 0 < fuel) :
    Nat.toDigitsCore 10 fuel n ds ≠ [] := by
  induction fuel generalizing n ds with
  | zero =>
    rcases h with h | h
    · exact h
    · omega
  | succ fuel ih =>
    unfold Nat.toDigitsCore
    simp only
    split
    · exact List.cons_ne_nil _ _
    · exact ih (n / 10) _ (Or.inl (List.cons_ne_nil _ _))

theorem toString_data (n : Nat) : (toString n).data = Nat.toDigits 10 n := rfl

theorem countAfter_digits (p : Bool) (ds : List Char) (h : ∀ c ∈ ds, c.isDigit = true) :
    countAfter p ds = 0 := by
  induction ds generalizing p with
  | nil => rfl
  | cons c ds ih =>
    have hc : c.isDigit = true := h c (List.mem_cons_self c ds)
    have hne : (c == ',') = false := by
      cases hb : (c == ',') with
      | false => rfl
      | true =>
        rw [beq_iff_eq] at hb
        rw [hb] at hc
        exact absurd hc (by decide)
    simp only [countAfter, hne, Bool.and_false]
    rw [ih c.isDigit fun d hd => h d (List.mem_cons_of_mem c hd)]
    rfl

theorem endsDigit_digits (p : Bool) (ds : List Char) (h : ∀ c ∈ ds, c.isDigit = true)
    (hne : ds ≠ []) : endsDigit p ds = true := by
  induction ds generalizing p with
  | nil => exact absurd rfl hne
  | cons c ds ih =>
    have hc : c.isDigit = true := h c (List.mem_cons_self c ds)
    cases ds with
    | nil => exact hc
    | cons d ds =>
      exact ih c.isDigit (fun e he => h e (List.mem_cons_of_mem c he)) (List.cons_ne_nil _ _)

theorem toString_isDigit (n : Nat) : ∀ c ∈ (toString n).data, c.isDigit = true := by
  rw [toString_data]
  exact toDigitsCore_isDigit (n + 1) n [] (fun c hc => absurd hc (List.not_mem_nil c))

theorem toString_ne_nil (n : Nat) : (toString n).data ≠ [] := by
  rw [toString_data]
  exact toDigitsCore_ne_nil (n + 1) n [] (Or.inr (Nat.succ_pos n))

/-- One element written by `%d,`, after an optional line break, counts once. -/
theorem counts_item {brk : String} (hb : Counts brk 0) (n : Nat) :
    Counts (brk ++ toString n ++ ",") 1 := by
  obtain ⟨hb1, hb2⟩ := hb
  unfold Counts
  rw [String.data_append, String.data_append, countAfter_append, countAfter_append,
    endsDigit_append, endsDigit_append, hb1, hb2,
    countAfter_digits false _ (toString_isDigit n),
    endsDigit_digits false _ (toString_isDigit n) (toString_ne_nil n)]
  exact ⟨rfl, rfl⟩

theorem counts_layoutElems {brk : String} (hb : Counts brk 0) (row : List Nat) :
    Counts (layoutElems brk row) row.length := by
  unfold layoutElems
  have h := counts_join ((List.range row.length).map fun j =>
      (if j % 16 = 0 then brk else "") ++ toString (row.getD j 0) ++ ",") 1 (by
    intro s hs
    rcases List.mem_map.1 hs with ⟨j, _, rfl⟩
    by_cases hj : j % 16 = 0
    · rw [if_pos hj]; exact counts_item hb _
    · rw [if_neg hj]; exact counts_item counts_empty _)
  rw [List.length_map, List.length_range, Nat.mul_one] at h
  exact h

theorem counts_layoutFlat (v : List Nat) : Counts (layoutFlat v) v.length := by
  unfold layoutFlat
  have h1 : Counts "[256]uint8\x7b" 0 := ⟨rfl, rfl⟩
  have h2 : Counts "\n\t" 0 := ⟨rfl, rfl⟩
  have h3 : Counts "\n\x7d" 0 := ⟨rfl, rfl⟩
  have h := counts_append (counts_append h1 (counts_layoutElems h2 v)) h3
  simp only [Nat.zero_add, Nat.add_zero] at h
  exact h

theorem counts_layoutRow (i : Nat) (row : List Nat) :
    Counts (layoutRow i row) row.length := by
  unfold layoutRow
  have h0 : Counts (if i % 4 = 0 then "\n\t" else "") 0 := by
    by_cases hi : i % 4 = 0
    · rw [if_pos hi]; exact ⟨rfl, rfl⟩
    · rw [if_neg hi]; exact counts_empty
  have h1 : Counts "\x7b" 0 := ⟨rfl, rfl⟩
  have h2 : Counts "\n\t\t" 0 := ⟨rfl, rfl⟩
  have h3 : Counts "\n\t\x7d," 0 := ⟨rfl, rfl⟩
  have h := counts_append (counts_append (counts_append h0 h1) (counts_layoutElems h2 row)) h3
  simp only [Nat.zero_add, Nat.add_zero] at h
  exact h

theorem counts_layoutGrid (v : List (List Nat)) (n : Nat)
    (hrow : ∀ i, i < v.length → (v.getD i []).length = n) :
    Counts (layoutGrid v) (v.length * n) := by
  unfold layoutGrid
  have h1 : Counts "[256][256]uint8\x7b" 0 := ⟨rfl, rfl⟩
  have h3 : Counts "\n\x7d" 0 := ⟨rfl, rfl⟩
  have hj := counts_join ((List.range v.length).map fun i => layoutRow i (v.getD i [])) n (by
    intro s hs
    rcases List.mem_map.1 hs with ⟨i, hi, rfl⟩
    rw [← hrow i (List.mem_range.1 hi)]
    exact counts_layoutRow i _)
  rw [List.length_map, List.length_range] at hj
  have h := counts_append (counts_append h1 hj) h3
  simp only [Nat.zero_add, Nat.add_zero] at h
  exact h

theorem isGrid_row_length {t : List (List Nat)} (ht : IsGrid t) :
    ∀ i, i < t.length → (t.getD i []).length = 256 := by
  intro i hi
  obtain ⟨hl, hr⟩ := ht
  obtain ⟨row, h1, h2⟩ := hr i (by omega)
  rw [List.getD_eq_getElem?_getD, h1]
  exact h2

theorem fillTables_pextLUT_isGrid : IsGrid fillTables.pextLUT := by
  unfold fillTables
  rw [fillOuter_fold_pextLUT,
    show zeroTables.pextLUT = List.replicate 256 (List.replicate 256 0) from rfl]
  exact (outer_loop_inv (fun b k => pextByte (u8 b) (u8 k)) isGrid_replicate 256 (le_refl _)).1

theorem fillTables_pdepLUT_isGrid : IsGrid fillTables.pdepLUT := by
  unfold fillTables
  rw [fillOuter_fold_pdepLUT,
    show zeroTables.pdepLUT = List.replicate 256 (List.replicate 256 0) from rfl]
  exact (outer_loop_inv (fun b k => pdepByte (u8 b) (u8 k)) isGrid_replicate 256 (le_refl _)).1

theorem fillTables_popLUT_length : fillTables.popLUT.length = 256 := by
  unfold fillTables
  rw [fillOuter_fold_popLUT, show zeroTables.popLUT = List.replicate 256 0 from rfl,
    (set_loop_inv (fun b => u8 (OnesCount8 (u8 b))) (List.replicate 256 0) 256
      (by rw [List.length_replicate])).1, List.length_replicate]

theorem countScalars_grid {name comment : String}
    (hc : Counts (commentLine comment ++ ("var " ++ name ++ " = ")) 0)
    {v : List (List Nat)} (hv : IsGrid v) :
    countScalars (generateTable name (TableData.grid v) comment) = 65536 := by
  rw [generateTable_grid]
  have h := counts_append hc (counts_layoutGrid v 256 (isGrid_row_length hv))
  rw [hv.1] at h
  exact h.1

theorem countScalars_flat {name comment : String}
    (hc : Counts (commentLine comment ++ ("var " ++ name ++ " = ")) 0) (v : List Nat) :
    countScalars (generateTable name (TableData.flat v) comment) = v.length := by
  rw [generateTable_flat]
  have h := counts_append hc (counts_layoutFlat v)
  rw [Nat.zero_add] at h
  exact h.1

theorem declarations_counts :
    (declarations fillTables).map countScalars = [65536, 65536, 256] := by
  have h1 : Counts (commentLine "pextLUT contains pre-computed parallel bit extraction results"
      ++ ("var " ++ "pextLUT" ++ " = ")) 0 := ⟨by decide, by decide⟩
  have h2 : Counts (commentLine "pdepLUT contains pre-computed parallel bit deposit results"
      ++ ("var " ++ "pdepLUT" ++ " = ")) 0 := ⟨by decide, by decide⟩
  have h3 : Counts (commentLine "popLUT contains pre-computed population counts"
      ++ ("var " ++ "popLUT" ++ " = ")) 0 := ⟨by decide, by decide⟩
  simp only [declarations, tables, List.map_cons, List.map_nil]
  rw [countScalars_grid h1 fillTables_pextLUT_isGrid,
    countScalars_grid h2 fillTables_pdepLUT_isGrid,
    countScalars_flat h3, fillTables_popLUT_length]

theorem declarations_eq (t : Tables) :
    declarations t
      = [ "// pextLUT contains pre-computed parallel bit extraction results\n"
            ++ "var pextLUT = " ++ layoutGrid t.pextLUT,
          "// pdepLUT contains pre-computed parallel bit deposit results\n"
            ++ "var pdepLUT = " ++ layoutGrid t.pdepLUT,
          "// popLUT contains pre-computed population counts\n"
            ++ "var popLUT = " ++ layoutFlat t.popLUT ] := by
  simp only [declarations, tables, List.map_cons, List.map_nil]
  rw [generateTable_grid, generateTable_grid, generateTable_flat]
  rw [show commentLine "pextLUT contains pre-computed parallel bit extraction results"
        = "// pextLUT contains pre-computed parallel bit extraction results\n" by decide,
    show commentLine "pdepLUT contains pre-computed parallel bit deposit results"
        = "// pdepLUT contains pre-computed parallel bit deposit results\n" by decide,
    show commentLine "popLUT contains pre-computed population counts"
        = "// popLUT contains pre-computed population counts\n" by decide,
    show "var " ++ "pextLUT" ++ " = " = "var pextLUT = " by decide,
    show "var " ++ "pdepLUT" ++ " = " = "var pdepLUT = " by decide,
    show "var " ++ "popLUT" ++ " = " = "var popLUT = " by decide]

theorem sourceText_join (p : String) (t : Tables) :
    sourceText p t
      = generatedHeader ++ ("package " ++ p ++ "\n\n")
        ++ String.join ((declarations t).map fun d => d ++ "\n\n") := by
  rw [sourceText_eq]
  simp only [declarations, tables, List.map_cons, List.map_nil, join_cons, join_nil,
    String.append_empty, String.append_assoc]

/-- C14 (amended): for package name `bits` the text `main` hands to the formatter
declares `package bits` and consists, after the header, of three table
declarations with pairwise distinct names `pextLUT`, `pdepLUT`, `popLUT`, whose
scalar element counts in the order the declarations appear are 65536, 65536
and 256. -/
theorem bits_declarations (env : Env) :
    main env (some "bits") = emit env (sourceText "bits" fillTables) ∧
    sourceText "bits" fillTables
      = generatedHeader ++ "package bits\n\n"
        ++ String.join ((declarations fillTables).map fun d => d ++ "\n\n") ∧
    declarations fillTables
      = [ "// pextLUT contains pre-computed parallel bit extraction results\n"
            ++ "var pextLUT = " ++ layoutGrid fillTables.pextLUT,
          "// pdepLUT contains pre-computed parallel bit deposit results\n"
            ++ "var pdepLUT = " ++ layoutGrid fillTables.pdepLUT,
          "// popLUT contains pre-computed population counts\n"
            ++ "var popLUT = " ++ layoutFlat fillTables.popLUT ] ∧
    ("pextLUT" ≠ "pdepLUT" ∧ "pextLUT" ≠ "popLUT" ∧ "pdepLUT" ≠ "popLUT") ∧
    (declarations fillTables).map countScalars = [65536, 65536, 256] := by
  refine ⟨?_, ?_, declarations_eq fillTables, ⟨by decide, by decide, by decide⟩,
    declarations_counts⟩
  · unfold main
    simp only [Option.getD_some]
    rw [if_neg (by decide)]
  · rw [sourceText_join, show "package " ++ "bits" ++ "\n\n" = "package bits\n\n" by decide]

/-- C14, as stated, fails: in the order the declarations appear the element counts
are not 256, 65536, 65536; the first declaration, `pextLUT`, has 65536 elements. -/
theorem bits_declarations_order :
    (declarations fillTables).map countScalars ≠ [256, 65536, 65536] := by
  rw [declarations_counts]
  decide

end PextGen
